import Mathlib

/-
Verification of the tunnel core of `vpn_client_zero_rated.py`.

The source is a bidirectional relay between a TAP device and a UDP socket:

  KEY = Fernet.generate_key()
  CIPHER = Fernet(KEY)
  def encrypt(data): return CIPHER.encrypt(data)
  def decrypt(data): return CIPHER.decrypt(data)

  def read_tap():            -- Pump A (device -> transport)
      while True:
          packet = win32file.ReadFile(tap, 4096)[1]
          encrypted = encrypt(packet)
          sock.sendto(encrypted, (PROXY_IP, PROXY_PORT))

  def read_socket():         -- Pump B (transport -> device)
      while True:
          data, _ = sock.recvfrom(4096)
          decrypted = decrypt(data)
          win32file.WriteFile(tap, decrypted)

Neither loop contains any exception handling: any exception raised by a
device read/write, a socket receive/send, or `decrypt` (Fernet raises
InvalidToken on authentication failure) propagates out of the `while True`
loop and terminates that pump's thread.
-/

namespace Vpn

/-- A byte string: every element is below 256. -/
def allBytes (p : List Nat) : Prop := ∀ b ∈ p, b < 256

instance : DecidablePred allBytes := fun p => List.decidableBAll _ p

/-- Modelled from the spec: the source delegates the Codec to
`cryptography.fernet.Fernet` (`KEY = Fernet.generate_key()`,
`CIPHER = Fernet(KEY)`), a third-party library whose implementation is not
part of `src/`.  `shiftByte` is the symbolic per-byte encryption used by the
model in place of Fernet's AES layer. -/
def shiftByte (k b : Nat) : Nat := (b + k) % 256

/-- Modelled from the spec: inverse of `shiftByte` on bytes. -/
def unshiftByte (k b : Nat) : Nat := (b + (256 - k % 256)) % 256

/-- Modelled from the spec: the key-dependent authentication material the
model embeds in every sealed packet, standing in for Fernet's HMAC signing
key; it determines which key a token verifies under. -/
def keyTag (key : List Nat) : List Nat := key.map (fun b => (b + 1) % 256)

/-- Modelled from the spec (Codec contract): authenticated encryption that
is total for any plaintext size, round-trips under the same key, and whose
tokens are rejected under any tampering or any other key.  The token layout
is symbolic — a version byte 128 (Fernet's `0x80`), the ciphertext, then
authentication material tying the token to the key and to the exact
ciphertext — not Fernet's concrete AES-CBC/HMAC/base64 byte format. -/
def fernetEncrypt (key p : List Nat) : List Nat :=
  128 :: (p.map (shiftByte key.sum) ++ (keyTag key ++ p.map (shiftByte key.sum)))

/-- Modelled from the spec (Codec contract): verify-then-decrypt.  Returns
`none` exactly when the token is not a well-formed sealed packet under this
key: wrong version byte, impossible length, or authentication material that
does not match the key and ciphertext. -/
def fernetDecrypt (key s : List Nat) : Option (List Nat) :=
  match s with
  | [] => none
  | v :: rest =>
    if v = 128 ∧ key.length ≤ rest.length ∧
        rest.length = 2 * ((rest.length - key.length) / 2) + key.length then
      if rest.drop ((rest.length - key.length) / 2) =
          keyTag key ++ rest.take ((rest.length - key.length) / 2) then
        some ((rest.take ((rest.length - key.length) / 2)).map (unshiftByte key.sum))
      else none
    else none

lemma unshift_shift (k : Nat) {b : Nat} (hb : b < 256) :
    unshiftByte k (shiftByte k b) = b := by
  unfold shiftByte unshiftByte
  omega

lemma map_unshift_shift (k : Nat) {p : List Nat} (hp : allBytes p) :
    (p.map (shiftByte k)).map (unshiftByte k) = p := by
  induction p with
  | nil => rfl
  | cons a t ih =>
    have ha : a < 256 := hp a (List.mem_cons_self _ _)
    have ht : allBytes t := fun b hb => hp b (List.mem_cons_of_mem _ hb)
    simp only [List.map_cons]
    rw [unshift_shift k ha, ih ht]

lemma length_fernetEncrypt (key p : List Nat) :
    (fernetEncrypt key p).length = 1 + 2 * p.length + key.length := by
  simp [fernetEncrypt, keyTag, List.length_append, List.length_map]
  omega

lemma fernet_roundtrip (key p : List Nat) (hp : allBytes p) :
    fernetDecrypt key (fernetEncrypt key p) = some p := by
  have hlct : (p.map (shiftByte key.sum)).length = p.length := List.length_map _ _
  have hltg : (keyTag key).length = key.length := List.length_map _ _
  have hlen : (p.map (shiftByte key.sum) ++ (keyTag key ++ p.map (shiftByte key.sum))).length
      = 2 * p.length + key.length := by
    simp [List.length_append, hlct, hltg]; omega
  have hn : ((p.map (shiftByte key.sum) ++ (keyTag key ++ p.map (shiftByte key.sum))).length
      - key.length) / 2 = p.length := by
    rw [hlen]; omega
  show fernetDecrypt key
      (128 :: (p.map (shiftByte key.sum) ++ (keyTag key ++ p.map (shiftByte key.sum)))) = some p
  simp only [fernetDecrypt]
  rw [hn, hlen]
  rw [if_pos ⟨trivial, by omega, by omega⟩]
  rw [List.drop_left' hlct, List.take_left' hlct]
  rw [if_pos rfl]
  rw [map_unshift_shift key.sum hp]

lemma xor_pow_ne (x j : Nat) : x ^^^ 2 ^ j ≠ x := by
  intro h
  have h2 : x ^^^ (x ^^^ 2 ^ j) = x ^^^ x := congrArg (x ^^^ ·) h
  rw [← Nat.xor_assoc, Nat.xor_self, Nat.zero_xor] at h2
  exact (pow_pos (by norm_num : (0:Nat) < 2) j).ne' h2

lemma getD_set_self (l : List Nat) (k c : Nat) (h : k < l.length) :
    (l.set k c).getD k 0 = c := by
  rw [List.getD_eq_getElem _ _ (by simpa using h)]
  simp [List.getElem_set]

lemma set_ne_of_getD_ne (l : List Nat) (k c : Nat) (h : k < l.length)
    (hc : c ≠ l.getD k 0) : l.set k c ≠ l := by
  intro heq
  apply hc
  rw [← getD_set_self l k c h, heq]

lemma decrypt_set_body_ne (key p : List Nat) (k c : Nat)
    (hk : k < (p.map (shiftByte key.sum) ++ (keyTag key ++ p.map (shiftByte key.sum))).length)
    (hc : c ≠ (p.map (shiftByte key.sum) ++ (keyTag key ++ p.map (shiftByte key.sum))).getD k 0) :
    fernetDecrypt key
      ((128 :: (p.map (shiftByte key.sum) ++ (keyTag key ++ p.map (shiftByte key.sum)))).set (k + 1) c)
      = none := by
  have hlct : (p.map (shiftByte key.sum)).length = p.length := List.length_map _ _
  have hltg : (keyTag key).length = key.length := List.length_map _ _
  rw [List.set_cons_succ]
  have hlen : (p.map (shiftByte key.sum) ++ (keyTag key ++ p.map (shiftByte key.sum))).length
      = 2 * p.length + key.length := by
    simp [List.length_append, hlct, hltg]; omega
  have hlset : ((p.map (shiftByte key.sum) ++ (keyTag key ++ p.map (shiftByte key.sum))).set k c).length
      = 2 * p.length + key.length := by
    rw [List.length_set, hlen]
  have hn : (((p.map (shiftByte key.sum) ++ (keyTag key ++ p.map (shiftByte key.sum))).set k c).length
      - key.length) / 2 = p.length := by
    rw [hlset]; omega
  simp only [fernetDecrypt]
  rw [hn, hlset]
  rw [if_pos ⟨trivial, by omega, by omega⟩]
  rw [if_neg]
  rcases Nat.lt_or_ge k p.length with hsmall | hbig
  · have hkct : k < (p.map (shiftByte key.sum)).length := by rw [hlct]; exact hsmall
    rw [List.set_append_left _ _ hkct]
    have hlsetct : ((p.map (shiftByte key.sum)).set k c).length = p.length := by
      rw [List.length_set, hlct]
    rw [List.drop_left' hlsetct, List.take_left' hlsetct]
    intro he
    have he2 := List.append_cancel_left he
    have hcct : c ≠ (p.map (shiftByte key.sum)).getD k 0 := by
      rw [← List.getD_append _ (keyTag key ++ p.map (shiftByte key.sum)) 0 k hkct]
      exact hc
    exact set_ne_of_getD_ne _ k c hkct hcct he2.symm
  · have hkct : (p.map (shiftByte key.sum)).length ≤ k := by rw [hlct]; exact hbig
    rw [List.set_append_right _ _ hkct]
    rw [List.drop_left' hlct, List.take_left' hlct]
    apply set_ne_of_getD_ne
    · simp only [List.length_append, hltg, hlct] at hk ⊢
      omega
    · rw [List.getD_append_right _ _ 0 k hkct] at hc
      exact hc

/-- A sealed packet with the bit `2 ^ j` of the byte at position `i` flipped. -/
def flipBit (s : List Nat) (i j : Nat) : List Nat := s.set i (s.getD i 0 ^^^ 2 ^ j)

lemma keyTag_inj {k1 k2 : List Nat} (h1 : allBytes k1) (h2 : allBytes k2)
    (he : keyTag k1 = keyTag k2) : k1 = k2 := by
  induction k1 generalizing k2 with
  | nil =>
    cases k2 with
    | nil => rfl
    | cons b t2 => simp [keyTag] at he
  | cons a t ih =>
    cases k2 with
    | nil => simp [keyTag] at he
    | cons b t2 =>
      simp only [keyTag, List.map_cons, List.cons.injEq] at he
      obtain ⟨hh, ht⟩ := he
      have ha : a < 256 := h1 a (List.mem_cons_self _ _)
      have hb : b < 256 := h2 b (List.mem_cons_self _ _)
      have hab : a = b := by omega
      subst hab
      rw [ih (fun x hx => h1 x (List.mem_cons_of_mem _ hx))
        (fun x hx => h2 x (List.mem_cons_of_mem _ hx)) ht]

lemma key_mismatch (k1 k2 p : List Nat) (hb1 : allBytes k1) (hb2 : allBytes k2)
    (hlen : k1.length = k2.length) (hne : k1 ≠ k2) :
    fernetDecrypt k2 (fernetEncrypt k1 p) = none := by
  have hlct : (p.map (shiftByte k1.sum)).length = p.length := List.length_map _ _
  have hltg : (keyTag k1).length = k1.length := List.length_map _ _
  have hlenb : (p.map (shiftByte k1.sum) ++ (keyTag k1 ++ p.map (shiftByte k1.sum))).length
      = 2 * p.length + k1.length := by
    simp [List.length_append, hlct, hltg]; omega
  have hn : ((p.map (shiftByte k1.sum) ++ (keyTag k1 ++ p.map (shiftByte k1.sum))).length
      - k2.length) / 2 = p.length := by
    rw [hlenb, ← hlen]; omega
  show fernetDecrypt k2
      (128 :: (p.map (shiftByte k1.sum) ++ (keyTag k1 ++ p.map (shiftByte k1.sum)))) = none
  simp only [fernetDecrypt]
  rw [hn, hlenb]
  rw [if_pos ⟨trivial, by omega, by omega⟩]
  rw [List.drop_left' hlct, List.take_left' hlct]
  rw [if_neg]
  intro he
  exact hne (keyTag_inj hb1 hb2 (List.append_cancel_right he))

/-- State of one pump thread: `RUNNING` while its `while True` loop is
executing, `STOPPED` once an uncaught exception has terminated the thread.
There is no transition out of `STOPPED`. -/
inductive PumpState where
  | RUNNING
  | STOPPED
deriving DecidableEq, Repr

/-- Outcome of one blocking I/O primitive: the value it returned, or the
exception it raised. -/
inductive OpResult (α : Type) where
  | ok (a : α)
  | err
deriving DecidableEq, Repr

/-- A remote endpoint as seen by `recvfrom`: abstract (host, port). -/
def PeerAddress : Type := Nat × Nat

instance : DecidableEq PeerAddress := instDecidableEqProd

/-- One iteration's environment for Pump A (`read_tap`): the outcome of
`win32file.ReadFile(tap, 4096)` and whether `sock.sendto` succeeds or
raises on this iteration. -/
structure AEvent where
  read : OpResult (List Nat)
  sendOk : Bool
deriving DecidableEq

/-- One iteration's environment for Pump B (`read_socket`): the outcome of
`sock.recvfrom(4096)` (payload and sender address) and whether
`win32file.WriteFile(tap, ...)` succeeds or raises on this iteration. -/
structure BEvent where
  recv : OpResult (List Nat × PeerAddress)
  writeOk : Bool
deriving DecidableEq

/-- One iteration of `read_tap` (Pump A, device -> transport), translated
from the source.  The body `packet = ReadFile(tap, 4096)[1];
encrypted = encrypt(packet); sock.sendto(encrypted, peer)` has no exception
handler, so a raising `ReadFile` or `sendto` terminates the thread
(`STOPPED`).  The second component is the datagram passed to `sendto` this
iteration, if the iteration reached the `sendto` call. -/
def pumpAStep (key : List Nat) (st : PumpState) (e : AEvent) :
    PumpState × Option (List Nat) :=
  match st with
  | PumpState.STOPPED => (PumpState.STOPPED, none)
  | PumpState.RUNNING =>
    match e.read with
    | OpResult.err => (PumpState.STOPPED, none)
    | OpResult.ok packet =>
      (if e.sendOk then PumpState.RUNNING else PumpState.STOPPED,
        some (fernetEncrypt key packet))

/-- One iteration of `read_socket` (Pump B, transport -> device), translated
from the source.  The body `data, _ = sock.recvfrom(4096);
decrypted = decrypt(data); win32file.WriteFile(tap, decrypted)` has no
exception handler: a raising `recvfrom`, a `decrypt` authentication failure
(Fernet's InvalidToken), or a raising `WriteFile` terminates the thread.
The sender address returned by `recvfrom` is bound to `_` and never
inspected.  The second component is the plaintext passed to `WriteFile`
this iteration, if the iteration reached the `WriteFile` call. -/
def pumpBStep (key : List Nat) (st : PumpState) (e : BEvent) :
    PumpState × Option (List Nat) :=
  match st with
  | PumpState.STOPPED => (PumpState.STOPPED, none)
  | PumpState.RUNNING =>
    match e.recv with
    | OpResult.err => (PumpState.STOPPED, none)
    | OpResult.ok (data, _addr) =>
      match fernetDecrypt key data with
      | none => (PumpState.STOPPED, none)
      | some decrypted =>
        (if e.writeOk then PumpState.RUNNING else PumpState.STOPPED,
          some decrypted)

/-- Run of the `read_tap` loop over a finite prefix of iteration
environments, collecting the datagrams passed to `sendto` in order. -/
def pumpARun (key : List Nat) : PumpState → List AEvent → PumpState × List (List Nat)
  | st, [] => (st, [])
  | st, e :: es =>
    let r := pumpAStep key st e
    let rest := pumpARun key r.1 es
    (rest.1, r.2.toList ++ rest.2)

/-- Run of the `read_socket` loop over a finite prefix of iteration
environments, collecting the plaintexts passed to `WriteFile` in order. -/
def pumpBRun (key : List Nat) : PumpState → List BEvent → PumpState × List (List Nat)
  | st, [] => (st, [])
  | st, e :: es =>
    let r := pumpBStep key st e
    let rest := pumpBRun key r.1 es
    (rest.1, r.2.toList ++ rest.2)

/-- The device packets the `read_tap` loop reads and carries to its
`sendto` call, in order, over a run. -/
def aProcessed : PumpState → List AEvent → List (List Nat)
  | PumpState.STOPPED, _ => []
  | PumpState.RUNNING, [] => []
  | PumpState.RUNNING, e :: es =>
    match e.read with
    | OpResult.err => []
    | OpResult.ok packet =>
      packet :: aProcessed (if e.sendOk then PumpState.RUNNING else PumpState.STOPPED) es

/-- The received datagrams the `read_socket` loop successfully decrypts and
carries to its `WriteFile` call, in order, over a run. -/
def bProcessed (key : List Nat) : PumpState → List BEvent → List (List Nat)
  | PumpState.STOPPED, _ => []
  | PumpState.RUNNING, [] => []
  | PumpState.RUNNING, e :: es =>
    match e.recv with
    | OpResult.err => []
    | OpResult.ok (data, _addr) =>
      match fernetDecrypt key data with
      | none => []
      | some _ =>
        data :: bProcessed key (if e.writeOk then PumpState.RUNNING else PumpState.STOPPED) es

/-- Interleaved scheduling of the two daemon threads started by
`start_vpn`: each system event schedules one iteration of one pump. -/
inductive SysEvent where
  | stepA (e : AEvent)
  | stepB (e : BEvent)
deriving DecidableEq

/-- Whether a system event schedules Pump B. -/
def isBStep : SysEvent → Bool
  | SysEvent.stepB _ => true
  | SysEvent.stepA _ => false

/-- One scheduling step of the two-thread system of `start_vpn`: the
scheduled pump takes one iteration; the other thread's state is untouched
(the source has no signalling, no join, and no shared flag between the two
threads). -/
def sysStep (key : List Nat) (s : PumpState × PumpState) : SysEvent → PumpState × PumpState
  | SysEvent.stepA e => ((pumpAStep key s.1 e).1, s.2)
  | SysEvent.stepB e => (s.1, (pumpBStep key s.2 e).1)

/-- Run of the two-thread system over a schedule. -/
def sysRun (key : List Nat) : (PumpState × PumpState) → List SysEvent → PumpState × PumpState
  | s, [] => s
  | s, ev :: evs => sysRun key (sysStep key s ev) evs

lemma sysRun_snd_frame (key : List Nat) (s : PumpState × PumpState)
    (evs : List SysEvent) (h : ∀ ev ∈ evs, isBStep ev = false) :
    (sysRun key s evs).2 = s.2 := by
  induction evs generalizing s with
  | nil => rfl
  | cons ev evs ih =>
    cases ev with
    | stepA e =>
      rw [sysRun, ih _ (fun x hx => h x (List.mem_cons_of_mem _ hx))]
      rfl
    | stepB e =>
      have := h _ (List.mem_cons_self _ _)
      simp [isBStep] at this

lemma pumpARun_stopped (key : List Nat) (es : List AEvent) :
    pumpARun key PumpState.STOPPED es = (PumpState.STOPPED, []) := by
  induction es with
  | nil => rfl
  | cons e es ih => simp [pumpARun, pumpAStep, ih]

lemma pumpBRun_stopped (key : List Nat) (es : List BEvent) :
    pumpBRun key PumpState.STOPPED es = (PumpState.STOPPED, []) := by
  induction es with
  | nil => rfl
  | cons e es ih => simp [pumpBRun, pumpBStep, ih]

lemma pumpARun_sent (key : List Nat) (st : PumpState) (es : List AEvent) :
    (pumpARun key st es).2 = (aProcessed st es).map (fernetEncrypt key) := by
  induction es generalizing st with
  | nil => cases st <;> rfl
  | cons e es ih =>
    cases st with
    | STOPPED => rw [pumpARun_stopped]; rfl
    | RUNNING =>
      cases hr : e.read with
      | err => simp [pumpARun, pumpAStep, hr, aProcessed, pumpARun_stopped]
      | ok packet => simp [pumpARun, pumpAStep, hr, aProcessed, ih]

lemma pumpBRun_written (key : List Nat) (st : PumpState) (es : List BEvent) :
    (pumpBRun key st es).2.map some = (bProcessed key st es).map (fernetDecrypt key) := by
  induction es generalizing st with
  | nil => cases st <;> rfl
  | cons e es ih =>
    cases st with
    | STOPPED => rw [pumpBRun_stopped]; rfl
    | RUNNING =>
      cases hr : e.recv with
      | err => simp [pumpBRun, pumpBStep, hr, bProcessed, pumpBRun_stopped]
      | ok pr =>
        obtain ⟨data, addr⟩ := pr
        cases hd : fernetDecrypt key data with
        | none => simp [pumpBRun, pumpBStep, hr, hd, bProcessed, pumpBRun_stopped]
        | some w => simp [pumpBRun, pumpBStep, hr, hd, bProcessed, ih]

/-- Claim C1 (as stated, refuted): the claim says that on an
authentication failure Pump B drops the datagram and continues in RUNNING.
In the source, `decrypt(data)` raises an uncaught InvalidToken, so on the
concrete undecryptable datagram `[0]` the pump writes nothing to the device
but moves to STOPPED, not RUNNING. -/
theorem authError_counterexample :
    fernetDecrypt [] [0] = none
    ∧ pumpBStep [] PumpState.RUNNING ⟨OpResult.ok ([0], (0, 0)), true⟩
      = (PumpState.STOPPED, none)
    ∧ PumpState.STOPPED ≠ PumpState.RUNNING :=
  ⟨by decide, by decide, by decide⟩

/-- Claim C1 (amended): for every incoming datagram on which decryption
fails with an authentication error, Pump B writes nothing to the Device
Channel, but the uncaught exception terminates the receive loop: the pump
moves to STOPPED rather than continuing in RUNNING. -/
theorem authError_stops_pumpB (key d : List Nat) (addr : PeerAddress) (wOk : Bool)
    (h : fernetDecrypt key d = none) :
    pumpBStep key PumpState.RUNNING ⟨OpResult.ok (d, addr), wOk⟩
      = (PumpState.STOPPED, none) := by
  simp [pumpBStep, h]

theorem authError_stops_pumpB_witness :
    fernetDecrypt [] [99] = none
    ∧ pumpBStep [] PumpState.RUNNING ⟨OpResult.ok ([99], (1, 2)), true⟩
      = (PumpState.STOPPED, none) :=
  ⟨by decide, authError_stops_pumpB [] [99] (1, 2) true (by decide)⟩

/-- Claim C2: for every byte sequence `p` within the 4096-byte MTU,
decrypting the encryption of `p` under the same process-lifetime key
succeeds and returns exactly `p`. -/
theorem encrypt_decrypt_roundtrip (key p : List Nat) (hp : allBytes p)
    (_hmtu : p.length ≤ 4096) :
    fernetDecrypt key (fernetEncrypt key p) = some p :=
  fernet_roundtrip key p hp

theorem encrypt_decrypt_roundtrip_witness :
    allBytes [10, 200] ∧ [10, 200].length ≤ 4096
    ∧ fernetDecrypt [3, 4] (fernetEncrypt [3, 4] [10, 200]) = some [10, 200] :=
  ⟨by decide, by decide,
    encrypt_decrypt_roundtrip [3, 4] [10, 200] (by decide) (by decide)⟩

/-- Claim C3 (as stated, refuted): the claim says a `send_to` failure is
logged and Pump A continues.  In the source, `sock.sendto` raising is
uncaught, so on a concrete iteration whose send fails the pump moves to
STOPPED, not RUNNING. -/
theorem sendFailure_counterexample :
    (pumpAStep [] PumpState.RUNNING ⟨OpResult.ok [1], false⟩).1 = PumpState.STOPPED
    ∧ PumpState.STOPPED ≠ PumpState.RUNNING :=
  ⟨by decide, by decide⟩

/-- Claim C3 (amended): a failure of `sendto` in Pump A terminates the
loop: the packet is still read and encrypted and the sealed datagram is
passed to `sendto`, but the uncaught exception moves the pump to STOPPED
instead of continuing with the next device read. -/
theorem sendFailure_stops_pumpA (key p : List Nat) :
    pumpAStep key PumpState.RUNNING ⟨OpResult.ok p, false⟩
      = (PumpState.STOPPED, some (fernetEncrypt key p)) := rfl

/-- Claim C4 (as stated, refuted): the claim says a fatal Device Channel
error makes both pumps reach STOPPED.  In the source there is no signal
between the two daemon threads: on the concrete schedule where Pump A's
device read raises, Pump A stops but Pump B is still RUNNING. -/
theorem deviceFatal_counterexample :
    sysRun [] (PumpState.RUNNING, PumpState.RUNNING)
        [SysEvent.stepA ⟨OpResult.err, true⟩]
      = (PumpState.STOPPED, PumpState.RUNNING)
    ∧ PumpState.RUNNING ≠ PumpState.STOPPED :=
  ⟨by decide, by decide⟩

/-- Claim C4 (amended): a fatal device error stops only the pump in which
it occurs.  A device read failure in Pump A moves Pump A to STOPPED and
leaves Pump B's state untouched, and under any further schedule in which
Pump B is never scheduled (it is blocked in `recvfrom` with no incoming
datagram) Pump B remains RUNNING forever: the code has no mechanism that
propagates a device failure to the other pump. -/
theorem deviceFatal_no_propagation (key : List Nat) (sB : PumpState) (sOk : Bool)
    (evs : List SysEvent) (h : ∀ ev ∈ evs, isBStep ev = false) :
    sysStep key (PumpState.RUNNING, sB) (SysEvent.stepA ⟨OpResult.err, sOk⟩)
      = (PumpState.STOPPED, sB)
    ∧ (sysRun key (PumpState.STOPPED, PumpState.RUNNING) evs).2 = PumpState.RUNNING :=
  ⟨rfl, sysRun_snd_frame key _ evs h⟩

theorem deviceFatal_no_propagation_witness :
    (∀ ev ∈ [SysEvent.stepA ⟨OpResult.err, true⟩], isBStep ev = false)
    ∧ (sysStep [] (PumpState.RUNNING, PumpState.RUNNING)
          (SysEvent.stepA ⟨OpResult.err, true⟩)
        = (PumpState.STOPPED, PumpState.RUNNING)
      ∧ (sysRun [] (PumpState.STOPPED, PumpState.RUNNING)
          [SysEvent.stepA ⟨OpResult.err, true⟩]).2 = PumpState.RUNNING) :=
  ⟨by decide,
    deviceFatal_no_propagation [] PumpState.RUNNING true
      [SysEvent.stepA ⟨OpResult.err, true⟩] (by decide)⟩

/-- Claim C5: in every run of the relay, the sequence of datagrams passed
to `sendto` is exactly the image under one `encrypt` call each of the
packets read from the device, and the sequence of plaintexts passed to the
device `WriteFile` is exactly the image under one successful `decrypt`
call each of the processed received datagrams: no payload bypasses the
Codec in either direction. -/
theorem relay_no_codec_bypass (key : List Nat) (stA stB : PumpState)
    (esA : List AEvent) (esB : List BEvent) :
    (pumpARun key stA esA).2 = (aProcessed stA esA).map (fernetEncrypt key)
    ∧ (pumpBRun key stB esB).2.map some = (bProcessed key stB esB).map (fernetDecrypt key) :=
  ⟨pumpARun_sent key stA esA, pumpBRun_written key stB esB⟩

/-- Claim C6: `encrypt` is total: for every input of any size it returns a
sealed packet (of fixed overhead over the plaintext) with no failure
branch, and the sealed packet decrypts back to the input under the same
key; no upper plaintext bound is enforced at the Codec layer. -/
theorem encrypt_total (key p : List Nat) :
    (fernetEncrypt key p).length = 1 + 2 * p.length + key.length
    ∧ (allBytes p → fernetDecrypt key (fernetEncrypt key p) = some p) :=
  ⟨length_fernetEncrypt key p, fun hp => fernet_roundtrip key p hp⟩

theorem encrypt_total_witness :
    (fernetEncrypt [] (List.replicate 8 3)).length
        = 1 + 2 * (List.replicate 8 3).length + ([] : List Nat).length
    ∧ fernetDecrypt [] (fernetEncrypt [] (List.replicate 8 3))
        = some (List.replicate 8 3) :=
  ⟨(encrypt_total [] (List.replicate 8 3)).1,
    (encrypt_total [] (List.replicate 8 3)).2 (by decide)⟩

/-- Claim C7: flipping any single bit of any byte of `encrypt key p` yields
a sealed packet that `decrypt` rejects with an authentication failure; in
this idealized model of the authenticated-encryption scheme the rejection
is certain, which realizes the claim's with-overwhelming-probability
reading, and no plaintext is ever returned for a tampered packet. -/
theorem tamper_rejection (key p : List Nat) (i j : Nat)
    (hi : i < (fernetEncrypt key p).length) :
    fernetDecrypt key (flipBit (fernetEncrypt key p) i j) = none := by
  cases i with
  | zero =>
    show fernetDecrypt key
      ((fernetEncrypt key p).set 0 ((fernetEncrypt key p).getD 0 0 ^^^ 2 ^ j)) = none
    simp only [fernetEncrypt, List.getD_cons_zero, List.set_cons_zero]
    simp only [fernetDecrypt]
    rw [if_neg]
    exact fun h => xor_pow_ne 128 j h.1
  | succ k =>
    have hk : k < (p.map (shiftByte key.sum) ++ (keyTag key ++ p.map (shiftByte key.sum))).length := by
      rw [length_fernetEncrypt] at hi
      simp only [List.length_append, List.length_map, keyTag]
      omega
    show fernetDecrypt key
      ((fernetEncrypt key p).set (k + 1) ((fernetEncrypt key p).getD (k + 1) 0 ^^^ 2 ^ j)) = none
    simp only [fernetEncrypt, List.getD_cons_succ]
    exact decrypt_set_body_ne key p k _ hk (xor_pow_ne _ j)

theorem tamper_rejection_witness :
    2 < (fernetEncrypt [] [5]).length
    ∧ fernetDecrypt [] (flipBit (fernetEncrypt [] [5]) 2 0) = none :=
  ⟨by decide, tamper_rejection [] [5] 2 0 (by decide)⟩

/-- Claim C8: two Codec instances built from independently generated
(hence distinct) fixed-length 32-byte keys cannot decrypt each other's
output: decrypting under the second key any sealed packet produced under
the first key fails with an authentication error, and symmetrically by
instantiating the quantifiers the other way around. -/
theorem independent_keys_reject (k1 k2 p : List Nat)
    (hb1 : allBytes k1) (hb2 : allBytes k2)
    (hl1 : k1.length = 32) (hl2 : k2.length = 32) (hne : k1 ≠ k2) :
    fernetDecrypt k2 (fernetEncrypt k1 p) = none :=
  key_mismatch k1 k2 p hb1 hb2 (by omega) hne

theorem independent_keys_reject_witness :
    allBytes (List.replicate 32 0) ∧ allBytes (List.replicate 32 1)
    ∧ (List.replicate 32 (0:Nat)).length = 32
    ∧ (List.replicate 32 (1:Nat)).length = 32
    ∧ List.replicate 32 (0:Nat) ≠ List.replicate 32 1
    ∧ fernetDecrypt (List.replicate 32 1)
        (fernetEncrypt (List.replicate 32 0) [7]) = none :=
  ⟨by decide, by decide, by decide, by decide, by decide,
    independent_keys_reject (List.replicate 32 0) (List.replicate 32 1) [7]
      (by decide) (by decide) (by decide) (by decide) (by decide)⟩

/-- Claim C9: Pump B's behavior does not depend on the sender address of a
received datagram: an iteration fed the same payload from two different
sender addresses performs the same decryption, the same device write or
the same drop, and reaches the same state — datagrams are accepted from
any sender, not only the configured peer. -/
theorem sender_address_ignored (key : List Nat) (st : PumpState) (d : List Nat)
    (a1 a2 : PeerAddress) (w : Bool) :
    pumpBStep key st ⟨OpResult.ok (d, a1), w⟩
      = pumpBStep key st ⟨OpResult.ok (d, a2), w⟩ := by
  cases st <;> rfl

/-- Claim C10: every sealed packet is strictly longer than its plaintext
(the scheme adds framing and authentication overhead), and for a device
packet near the 4096-byte receive ceiling the sealed packet exceeds 4096
bytes, the most `recvfrom(4096)` reads in one datagram. -/
theorem encrypt_expansion (key p : List Nat) :
    p.length < (fernetEncrypt key p).length
    ∧ (4000 ≤ p.length → 4096 < (fernetEncrypt key p).length) := by
  have h := length_fernetEncrypt key p
  exact ⟨by omega, fun h4 => by omega⟩

theorem encrypt_expansion_witness :
    4000 ≤ (List.replicate 4096 (0:Nat)).length
    ∧ 4096 < (fernetEncrypt [] (List.replicate 4096 0)).length :=
  ⟨by rw [List.length_replicate]; omega,
    (encrypt_expansion [] (List.replicate 4096 0)).2 (by rw [List.length_replicate]; omega)⟩

end Vpn
